import Mathlib

/-!
# Verification of the batched fetch-and-join core of `steam-api-helpers`

Shallow embedding of the algorithmic core of the repository
(`src/utils.js` and `src/index.js`): deduplication (`uniq`), chunking
(`reduceChunk`), the sequential batch executor (`promiseSeries`), the
grouping/indexing joiner (`groupBy`/`indexBy` and the two-level
description join used by `getInventory` and
`mergeTradeHistoryResponseDescriptions`), the classinfo record
normalizer (`fixClassInfo`), the per-chunk response post-processing of
`getAssetClassInfos`, and the option handling of `getTradeHistory`.

JavaScript objects are modelled as association lists `List (String × JVal)`
with unique keys (a JS object cannot hold two properties with the same
name); JS values are modelled by the inductive type `JVal`.  The HTTP
transport (`getJSON` in `src/requests.js`) is outside the claims and is
factored out: every embedded operation starts from the JSON value(s) the
transport delivered.
-/

set_option autoImplicit false

namespace SteamApiHelpers

universe u v w

/-- A JSON-ish JavaScript value: `null`/`undefined` collapse to `null`
(the claims never distinguish them), booleans, integers (the numeric
values appearing in the API responses), strings, arrays and objects.
Objects are association lists in property insertion order. -/
inductive JVal : Type where
  | null : JVal
  | bool : Bool → JVal
  | num : Int → JVal
  | str : String → JVal
  | arr : List JVal → JVal
  | obj : List (String × JVal) → JVal

/-- JavaScript truthiness of a `JVal` (`if (v) ...`).  Arrays and objects
are always truthy, `null`/`undefined`, `false`, `0` and `""` are falsy. -/
def JVal.truthy : JVal → Bool
  | .null => false
  | .bool b => b
  | .num n => n ≠ 0
  | .str s => s ≠ ""
  | .arr _ => true
  | .obj _ => true

/-- The value of `Object.values(v)`.  On an array it returns the list of elements, on
an object the property values in insertion order, on a string its
characters, and on the remaining primitives the empty list (a boxed
number or boolean has no own enumerable properties). -/
def JVal.objectValues : JVal → List JVal
  | .arr xs => xs
  | .obj fs => fs.map Prod.snd
  | .str s => s.data.map (fun c => JVal.str (String.mk [c]))
  | _ => []

/-- A JavaScript object: an association list of properties in insertion
order.  In JS the keys are unique; operations below are nevertheless
total on arbitrary lists. -/
abbrev JObj : Type := List (String × JVal)

/-- Generic association-list read, `l[k]` on an object with keys of any
type with decidable equality (`getProp` is the `String`/`JVal` case). -/
def lookupEntry {κ : Type u} {β : Type v} [DecidableEq κ]
    (l : List (κ × β)) (k : κ) : Option β :=
  (l.find? (fun p => decide (p.1 = k))).map Prod.snd

/-- Generic association-list write for a key already present: replaces
the value in place, keeping the entry position. -/
def updEntry {κ : Type u} {β : Type v} [DecidableEq κ]
    (l : List (κ × β)) (k : κ) (v : β) : List (κ × β) :=
  l.map (fun p => if p.1 = k then (k, v) else p)

/-- Property read `o[k]`: the first entry with key `k` (`none` models
`undefined`). -/
def getProp (o : JObj) (k : String) : Option JVal :=
  lookupEntry o k

/-- Property write `o[k] = v` for a key already present on `o`: replaces
the value in place, keeping the property position (JS assignment to an
existing key keeps its insertion position). -/
def setProp (o : JObj) (k : String) (v : JVal) : JObj :=
  updEntry o k v

/-- The effect of `delete o[k]`: removes every entry with key `k` (a JS object has at
most one). -/
def deleteProp {κ : Type u} {β : Type v} [DecidableEq κ]
    (l : List (κ × β)) (k : κ) : List (κ × β) :=
  l.filter (fun p => decide (p.1 ≠ k))

/-- One property copy of `Object.assign`: overwrite in place when the
key is present, append otherwise. -/
def objAssignStep {β : Type v} (t : List (String × β)) (p : String × β) :
    List (String × β) :=
  match lookupEntry t p.1 with
  | some _ => updEntry t p.1 p.2
  | none => t ++ [p]

/-- The value of `Object.assign(total, response)`, and equally the value of the
spread `{...total, ...response}`: keys already on `total` are overwritten
in place, new keys are appended in `response` order. -/
def objAssign {β : Type v} (total response : List (String × β)) :
    List (String × β) :=
  response.foldl objAssignStep total

/-! ## `promiseSeries` (src/utils.js lines 13-39)

A task is modelled as a function from the array of previously resolved
values to `Except ε JVal` (the source passes the accumulated `resolves`
array to each task).  `promiseSeries` is the fold
`funcs.reduce(promiseReduce, Promise.resolve([]))`: a rejected chain is
propagated unchanged (the `.catch(error => Promise.reject(error))`
handlers re-reject with the same error), and a resolved chain runs the
next task and appends its value with `concat`.

`Array.prototype.concat` spreads an array argument into the result
(ECMAScript `concat` treats array arguments as concat-spreadable), so
the accumulation step `resolves.concat(value)` appends the *elements* of
`value` when `value` is an array, and appends `value` itself otherwise.
`jsConcat` mirrors exactly that. -/

/-- The value of `resolves.concat(value)` per ECMAScript: an array argument is
spread, any other value is appended as a single element. -/
def jsConcat (resolves : List JVal) : JVal → List JVal
  | .arr xs => resolves ++ xs
  | v => resolves ++ [v]

/-- Mirrors `promiseReduce(chain, func)` from src/utils.js: a rejected chain
propagates unchanged; a resolved chain runs `func` on the accumulated
values and either propagates `func`'s rejection or appends its resolved
value with `concat`. -/
def promiseReduce {ε : Type w} (chain : Except ε (List JVal))
    (func : List JVal → Except ε JVal) : Except ε (List JVal) :=
  match chain with
  | .error e => .error e
  | .ok resolves =>
    match func resolves with
    | .error e => .error e
    | .ok value => .ok (jsConcat resolves value)

/-- Mirrors `promiseSeries(funcs)` from src/utils.js:
`funcs.reduce(promiseReduce, Promise.resolve([]))`. -/
def promiseSeries {ε : Type w} (funcs : List (List JVal → Except ε JVal)) :
    Except ε (List JVal) :=
  funcs.foldl promiseReduce (.ok [])

/-! ## `uniq` (src/utils.js lines 47-76) -/

/-- Mirrors `uniq(arr)` without a filter: `[...new Set(arr)]`, the insertion
ordered set of the elements, i.e. a left fold keeping each element the
first time it is seen. -/
def jsUniq {α : Type u} [DecidableEq α] (arr : List α) : List α :=
  arr.foldl (fun acc x => if x ∈ acc then acc else acc ++ [x]) []

/-- Mirrors `uniq(arr, filter)` with a filter: `arr.filter(pred)` where the
predicate derives `filter(item, i, array)` and consults/updates the
stateful `valueList` presence map.  The stateful closure is threaded as
fold state `(seen keys, kept items)`; the constant `array` argument of
the callback is dropped (it is always `arr` itself, so any JS callback
is captured by some `filter : ι → Nat → κ`).  Key lookup in `valueList`
is modelled as membership of the derived key (the source stores `true`
under the key and tests truthiness). -/
def uniqBy {ι : Type u} {κ : Type v} [DecidableEq κ]
    (arr : List ι) (filter : ι → Nat → κ) : List ι :=
  (arr.enum.foldl
    (fun st p =>
      let value := filter p.2 p.1
      if value ∈ st.1 then st else (value :: st.1, st.2 ++ [p.2]))
    (([] : List κ), ([] : List ι))).2

/-! ## `reduceChunk` (src/utils.js lines 83-105) -/

/-- The reducer returned by `reduceChunk(chunksize)`: starts a new chunk
when the accumulator is empty (`currentIndex === -1`) or the last chunk
has reached `chunksize`, otherwise appends the item to the last chunk. -/
def reduceChunk {α : Type u} (chunksize : Nat)
    (total : List (List α)) (item : α) : List (List α) :=
  match total.getLast? with
  | none => total ++ [[item]]
  | some last =>
    if chunksize ≤ last.length then total ++ [[item]]
    else total.dropLast ++ [last ++ [item]]

/-! ## `groupBy` / `indexBy` (src/utils.js lines 113-145)

Both reduce over the array with the item and its index; a string key
`'k'` is the key function `fun item _ => item[k]`.  The result object is
an association list; JS enumerates integer-like keys of an object in
numeric order rather than insertion order, but every property of
interest below is independent of entry order. -/

/-- The reducer of `groupBy`: `(group[value] = group[value] || []).push(item)`
with `value = key(item, i)`. -/
def groupByStep {ι : Type u} {κ : Type v} [DecidableEq κ]
    (key : ι → Nat → κ) (group : List (κ × List ι)) (p : Nat × ι) :
    List (κ × List ι) :=
  match lookupEntry group (key p.2 p.1) with
  | some items => updEntry group (key p.2 p.1) (items ++ [p.2])
  | none => group ++ [(key p.2 p.1, [p.2])]

/-- Mirrors `groupBy(arr, key)`: pushes each item onto the group of its derived
key, creating the group at first sight of the key. -/
def groupBy {ι : Type u} {κ : Type v} [DecidableEq κ]
    (arr : List ι) (key : ι → Nat → κ) : List (κ × List ι) :=
  arr.enum.foldl (groupByStep key) []

/-- The reducer of `indexBy`: stores the item only when
`group[value] === undefined`. -/
def indexByStep {ι : Type u} {κ : Type v} [DecidableEq κ]
    (key : ι → Nat → κ) (group : List (κ × ι)) (p : Nat × ι) :
    List (κ × ι) :=
  match lookupEntry group (key p.2 p.1) with
  | some _ => group
  | none => group ++ [(key p.2 p.1, p.2)]

/-- Mirrors `indexBy(arr, key)`: stores each item under its derived key only if
the key is not yet present (first-seen-wins). -/
def indexBy {ι : Type u} {κ : Type v} [DecidableEq κ]
    (arr : List ι) (key : ι → Nat → κ) : List (κ × ι) :=
  arr.enum.foldl (indexByStep key) []

/-! ## The description join (src/index.js lines 33-74 and 249-290)

`mergeTradeHistoryResponseDescriptions` (outer key `appid`, inner key
`classid`) and `getInventory` (outer key `classid`, inner key
`instanceid`) build the same two-level lookup table from the
`descriptions` collection — `groupBy` on the outer key, then `indexBy`
each group on the inner key — and map each primary record to
`{...item, ...match}` when `table[item[outer]][item[inner]]` is found
and to a copy of the record otherwise (`(... ) || {}` respectively a
spread of `undefined`, both of which leave the record's fields as they
are).  Records are association lists `List (String × V)` over an
arbitrary value type with decidable equality; a missing field reads as
`none` (undefined). -/

/-- The two-level lookup table: group the descriptions by the outer
field, then index each group by the inner field. -/
def twoLevelTable {V : Type v} [DecidableEq V]
    (descriptions : List (List (String × V))) (outerKey innerKey : String) :
    List (Option V × List (Option V × List (String × V))) :=
  (groupBy descriptions (fun d _ => lookupEntry d outerKey)).map
    (fun g => (g.1, indexBy g.2 (fun d _ => lookupEntry d innerKey)))

/-- The join: each primary record is merged with its table match, or
kept as is when the table has no entry for its key pair. -/
def combineWithDescriptions {V : Type v} [DecidableEq V]
    (primary secondary : List (List (String × V)))
    (outerKey innerKey : String) : List (List (String × V)) :=
  let table := twoLevelTable secondary outerKey innerKey
  primary.map
    (fun item =>
      match (lookupEntry table (lookupEntry item outerKey)).bind
          (fun inner => lookupEntry inner (lookupEntry item innerKey)) with
      | some classinfo => objAssign item classinfo
      | none => item)

/-! ## `fixClassInfo` (src/index.js lines 12-25) -/

/-- The four arrayish classinfo fields normalized by `fixClassInfo`. -/
def arrayishKeys : List String :=
  ["actions", "market_actions", "tags", "descriptions"]

/-- One iteration of the `forEach` in `fixClassInfo`: if
`classinfo[key]` is truthy, replace it with the array
`Object.values(classinfo[key])`; an absent or falsy field is left
untouched. -/
def fixKey (classinfo : JObj) (k : String) : JObj :=
  match getProp classinfo k with
  | some v => if v.truthy then setProp classinfo k (.arr v.objectValues) else classinfo
  | none => classinfo

/-- Mirrors `fixClassInfo(classinfo)`: normalizes the four arrayish fields in
order. -/
def fixClassInfo (classinfo : JObj) : JObj :=
  arrayishKeys.foldl fixKey classinfo

/-- Applies `fixClassInfo` to an arbitrary value: property access and
assignment only take effect on an object; on any other value the four
reads yield `undefined` and the value is returned unchanged. -/
def fixClassInfoVal : JVal → JVal
  | .obj fs => .obj (fixClassInfo fs)
  | v => v

/-! ## Per-chunk post-processing and merge of `getAssetClassInfos`
(src/index.js lines 151-203)

Each task takes the chunk response's `result` object, executes
`delete result.success` unconditionally, and rebuilds the container by
applying `fixClassInfo` to each remaining value
(`Object.entries(result).reduce(...)`).  The successfully collected
per-chunk containers are then merged with
`responses.reduce((total, response) => Object.assign(total, response), {})`.
The transport, the chunking of the classids and the inter-request sleep
are not part of this data path. -/

/-- The body of one `getAssetClassInfos` task, from the response's
`result` object to the per-chunk container. -/
def processChunkResult (result : JObj) : JObj :=
  (deleteProp result "success").map (fun p => (p.1, fixClassInfoVal p.2))

/-- The merged container built by `getAssetClassInfos` from the
per-chunk `result` objects. -/
def getAssetClassInfosMerge (results : List JObj) : JObj :=
  (results.map processChunkResult).foldl objAssign []

/-! ## Option handling of `getTradeHistory` (src/index.js lines 340-369)

To state what `const params = {...options}` followed by
`delete params.combine_descriptions` does to the *caller's* object, the
mutable objects are modelled by a store (a list of objects) with
references as indices.  The spread allocates a fresh object holding a
copy of the caller's properties; the delete is an in-place update of the
freshly allocated object only. -/

/-- The option handling of `getTradeHistory`: given the store and the
reference to the caller's options object, allocates the copy `params`,
deletes `combine_descriptions` on it in place, and returns the new store
together with the reference to `params` (whose value is what is spread
into the request's query string). -/
def getTradeHistoryParams (store : List JObj) (optionsRef : Nat) :
    List JObj × Nat :=
  let params : JObj := store.getD optionsRef []
  let paramsRef := store.length
  let store1 := store ++ [params]
  let store2 := store1.set paramsRef (deleteProp params "combine_descriptions")
  (store2, paramsRef)

/-! ## Spec-side definition for the deduplicator

Refinement target for the `uniq` claims, following the words of spec
§4.1: a presence set keyed by the derived key, keeping each distinct
key's first occurrence in original relative order. -/

/-- Modelled from the spec (§4.1 Deduplicator): keep an item when its
derived key is not in the presence set `seen`, and record the key;
otherwise drop the item. -/
def dedupeSpec {ι : Type u} {κ : Type v} [DecidableEq κ]
    (key : ι → κ) : List κ → List ι → List ι
  | _, [] => []
  | seen, x :: xs =>
    if key x ∈ seen then dedupeSpec key seen xs
    else x :: dedupeSpec key (key x :: seen) xs

/-! ## Association-list lemmas -/

section AssocLemmas

variable {κ : Type u} {β : Type v} [DecidableEq κ]

theorem lookupEntry_nil (k : κ) : lookupEntry ([] : List (κ × β)) k = none := rfl

theorem lookupEntry_cons (a : κ × β) (l : List (κ × β)) (k : κ) :
    lookupEntry (a :: l) k = if a.1 = k then some a.2 else lookupEntry l k := by
  by_cases h : a.1 = k <;> simp [lookupEntry, List.find?_cons, h]

theorem lookupEntry_append (l₁ l₂ : List (κ × β)) (k : κ) :
    lookupEntry (l₁ ++ l₂) k = (lookupEntry l₁ k).or (lookupEntry l₂ k) := by
  induction l₁ with
  | nil => simp [lookupEntry_nil]
  | cons a t ih =>
    by_cases h : a.1 = k <;> simp [lookupEntry_cons, h, ih]

theorem lookupEntry_eq_none_iff (l : List (κ × β)) (k : κ) :
    lookupEntry l k = none ↔ ∀ p ∈ l, p.1 ≠ k := by
  simp [lookupEntry, List.find?_eq_none]

theorem lookupEntry_updEntry_self (l : List (κ × β)) (k : κ) (v : β) :
    lookupEntry (updEntry l k v) k = (lookupEntry l k).map (fun _ => v) := by
  induction l with
  | nil => rfl
  | cons a t ih =>
    simp only [updEntry, List.map_cons] at ih ⊢
    by_cases h : a.1 = k <;> simp [lookupEntry_cons, h, ih]

theorem lookupEntry_updEntry_ne (l : List (κ × β)) {k k' : κ} (v : β)
    (h : k' ≠ k) : lookupEntry (updEntry l k v) k' = lookupEntry l k' := by
  induction l with
  | nil => rfl
  | cons a t ih =>
    simp only [updEntry, List.map_cons] at ih ⊢
    by_cases ha : a.1 = k
    · have hk : ¬ (k = k') := fun hk => h hk.symm
      simp [lookupEntry_cons, ha, hk, ih]
    · by_cases ha' : a.1 = k' <;> simp [lookupEntry_cons, ha, ha', h, ih]

theorem updEntry_updEntry_self (l : List (κ × β)) (k : κ) (v w : β) :
    updEntry (updEntry l k v) k w = updEntry l k w := by
  induction l with
  | nil => rfl
  | cons a t ih =>
    simp only [updEntry, List.map_cons] at ih ⊢
    by_cases h : a.1 = k <;> simp [h, ih]

theorem updEntry_comm (l : List (κ × β)) {k k' : κ} (v w : β) (h : k ≠ k') :
    updEntry (updEntry l k v) k' w = updEntry (updEntry l k' w) k v := by
  induction l with
  | nil => rfl
  | cons a t ih =>
    simp only [updEntry, List.map_cons] at ih ⊢
    by_cases ha : a.1 = k
    · simp [ha, h, ih, fun hk : k = k' => h hk]
    · by_cases ha' : a.1 = k' <;> simp [ha, ha', h.symm, ih]

end AssocLemmas

/-! ## Lemmas about `promiseSeries` -/

section PromiseSeriesLemmas

variable {ε : Type w}

theorem foldl_promiseReduce_error (funcs : List (List JVal → Except ε JVal))
    (e : ε) : funcs.foldl promiseReduce (.error e) = .error e := by
  induction funcs with
  | nil => rfl
  | cons f t ih => simpa [promiseReduce] using ih

theorem promiseSeries_append (l₁ l₂ : List (List JVal → Except ε JVal)) :
    promiseSeries (l₁ ++ l₂) = l₂.foldl promiseReduce (promiseSeries l₁) := by
  simp [promiseSeries, List.foldl_append]

/-- C2: if every task before `f` succeeds (accumulating `acc`), and `f`
rejects with error `e`, then `promiseSeries` rejects with exactly `e`,
whatever the remaining tasks are — the result does not depend on `post`,
so the tasks after the failing one are never invoked — and no result
sequence (partial or otherwise) is ever returned to the caller. -/
theorem promiseSeries_all_or_nothing
    (pre post : List (List JVal → Except ε JVal))
    (f : List JVal → Except ε JVal) (e : ε) (acc : List JVal)
    (hpre : promiseSeries pre = .ok acc) (hf : f acc = .error e) :
    promiseSeries (pre ++ f :: post) = .error e
    ∧ ∀ res : List JVal, promiseSeries (pre ++ f :: post) ≠ .ok res := by
  have h1 : promiseSeries (pre ++ f :: post) = .error e := by
    rw [promiseSeries_append, hpre]
    simp only [List.foldl_cons, promiseReduce, hf]
    exact foldl_promiseReduce_error post e
  refine ⟨h1, fun res h => ?_⟩
  rw [h1] at h
  exact Except.noConfusion h

theorem promiseSeries_all_or_nothing_witness :
    promiseSeries
      ([fun _ => .ok (.num 1)]
        ++ (fun _ => Except.error 42) :: [fun _ => .ok (.num 2)])
      = .error 42 :=
  (promiseSeries_all_or_nothing [fun _ => .ok (.num 1)]
    [fun _ => .ok (.num 2)] (fun _ => Except.error 42) 42 [.num 1]
    rfl rfl).1

/-- C3: `promiseSeries` is *not* index-aligned with the task sequence:
`Array.prototype.concat` spreads an array-valued result, so the single
task resolving with the array `[1, 2]` produces the two-element result
`[1, 2]` instead of the one-element result `[[1, 2]]` required by the
claim (and by the function's own doc comment, which promises an array
containing the result of each resolved promise). -/
theorem promiseSeries_flattens_array_results :
    promiseSeries (ε := Unit) [fun _ => .ok (.arr [.num 1, .num 2])]
      = .ok [.num 1, .num 2]
    ∧ promiseSeries (ε := Unit) [fun _ => .ok (.arr [.num 1, .num 2])]
      ≠ .ok [.arr [.num 1, .num 2]] := by
  refine ⟨rfl, fun h => ?_⟩
  simp [promiseSeries, promiseReduce, jsConcat] at h

end PromiseSeriesLemmas

/-! ## Lemmas about `uniq`: the deduplicator keeps first occurrences -/

section UniqLemmas

variable {α : Type u} {ι : Type u} {κ : Type v} [DecidableEq κ]

theorem dedupeSpec_congr (key : ι → κ) (l : List ι) :
    ∀ s₁ s₂ : List κ, (∀ k, k ∈ s₁ ↔ k ∈ s₂) →
      dedupeSpec key s₁ l = dedupeSpec key s₂ l := by
  induction l with
  | nil => intro s₁ s₂ _; rfl
  | cons x xs ih =>
    intro s₁ s₂ hs
    by_cases h : key x ∈ s₁
    · have h2 : key x ∈ s₂ := (hs _).1 h
      simp only [dedupeSpec, if_pos h, if_pos h2]
      exact ih s₁ s₂ hs
    · have h2 : key x ∉ s₂ := fun hh => h ((hs _).2 hh)
      simp only [dedupeSpec, if_neg h, if_neg h2]
      exact congrArg _ (ih _ _ (fun k => by simp [hs k]))

theorem dedupeSpec_sublist (key : ι → κ) (l : List ι) :
    ∀ seen : List κ, (dedupeSpec key seen l).Sublist l := by
  induction l with
  | nil => intro _; exact List.Sublist.refl []
  | cons x xs ih =>
    intro seen
    by_cases h : key x ∈ seen
    · simpa [dedupeSpec, h] using (ih seen).cons x
    · simpa [dedupeSpec, h] using (ih (key x :: seen)).cons₂ x

theorem jsUniq_go [DecidableEq α] (l : List α) :
    ∀ acc : List α,
      l.foldl (fun acc x => if x ∈ acc then acc else acc ++ [x]) acc
        = acc ++ dedupeSpec (fun x => x) acc l := by
  induction l with
  | nil => intro acc; simp [dedupeSpec]
  | cons x xs ih =>
    intro acc
    by_cases h : x ∈ acc
    · simp only [List.foldl_cons, if_pos h]
      rw [ih acc]
      simp [dedupeSpec, h]
    · simp only [List.foldl_cons, if_neg h]
      rw [ih (acc ++ [x])]
      simp only [dedupeSpec, if_neg h]
      rw [dedupeSpec_congr (fun x => x) xs (acc ++ [x]) (x :: acc)
        (fun k => by simp [or_comm])]
      simp

/-- The source's `uniq` without a filter keeps exactly the first occurrence of each
distinct element, in order. -/
theorem jsUniq_eq_dedupeSpec [DecidableEq α] (arr : List α) :
    jsUniq arr = dedupeSpec (fun x => x) [] arr := by
  simpa using jsUniq_go arr []

theorem uniqBy_go (filter : ι → Nat → κ) (l : List (Nat × ι)) :
    ∀ (seen : List κ) (out : List ι),
      (l.foldl
        (fun st p =>
          let value := filter p.2 p.1
          if value ∈ st.1 then st else (value :: st.1, st.2 ++ [p.2]))
        (seen, out)).2
      = out ++ (dedupeSpec (fun p => filter p.2 p.1) seen l).map Prod.snd := by
  induction l with
  | nil => intro seen out; simp [dedupeSpec]
  | cons p t ih =>
    intro seen out
    by_cases h : filter p.2 p.1 ∈ seen
    · simp only [List.foldl_cons, if_pos h]
      rw [ih seen out]
      simp [dedupeSpec, h]
    · simp only [List.foldl_cons, if_neg h]
      rw [ih (filter p.2 p.1 :: seen) (out ++ [p.2])]
      simp [dedupeSpec, h]

/-- The source's `uniq` with a filter keeps exactly the items whose derived key has
not been seen before, in order. -/
theorem uniqBy_eq_dedupeSpec (items : List ι) (filter : ι → Nat → κ) :
    uniqBy items filter
      = (dedupeSpec (fun p => filter p.2 p.1) [] items.enum).map Prod.snd := by
  simpa [uniqBy] using uniqBy_go filter items.enum [] []

theorem uniqBy_sublist (items : List ι) (filter : ι → Nat → κ) :
    (uniqBy items filter).Sublist items := by
  rw [uniqBy_eq_dedupeSpec]
  have h := (dedupeSpec_sublist (fun p : Nat × ι => filter p.2 p.1)
    items.enum []).map Prod.snd
  rwa [List.enum_map_snd] at h

/-- C7: `uniq` returns, for each distinct derived key, exactly that
key's first occurrence, in the original relative order.  Both branches
of the source are covered: without a filter (`[...new Set(arr)]`,
key = the element itself) and with a filter (first occurrence by derived
key).  `dedupeSpec` is the spec's presence-set algorithm; the `Sublist`
conjuncts witness that the result is a subsequence of the input in the
original relative order, and the embedding is a pure function of the
input, which is returned untouched. -/
theorem uniq_keeps_first_occurrences
    [DecidableEq α] (arr : List α) (items : List ι) (filter : ι → Nat → κ) :
    jsUniq arr = dedupeSpec (fun x => x) [] arr
    ∧ uniqBy items filter
        = (dedupeSpec (fun p => filter p.2 p.1) [] items.enum).map Prod.snd
    ∧ (jsUniq arr).Sublist arr
    ∧ (uniqBy items filter).Sublist items :=
  ⟨jsUniq_eq_dedupeSpec arr, uniqBy_eq_dedupeSpec items filter,
    by rw [jsUniq_eq_dedupeSpec]; exact dedupeSpec_sublist _ arr [],
    uniqBy_sublist items filter⟩

end UniqLemmas

/-! ## Lemmas about `reduceChunk` -/

section ChunkLemmas

variable {α : Type u}

/-- One `reduceChunk` step appends the item to the concatenation of the
chunks, whatever the branch taken. -/
theorem reduceChunk_flatten (s : Nat) (acc : List (List α)) (x : α) :
    (reduceChunk s acc x).flatten = acc.flatten ++ [x] := by
  unfold reduceChunk
  cases hl : acc.getLast? with
  | none =>
    have : acc = [] := List.getLast?_eq_none_iff.mp hl
    subst this
    simp
  | some last =>
    obtain ⟨ys, rfl⟩ := List.getLast?_eq_some_iff.mp hl
    by_cases hs : s ≤ last.length
    · simp [hs, List.flatten_concat]
    · simp [hs, List.flatten_concat, List.dropLast_concat]

/-- One `reduceChunk` step preserves the chunk-shape invariant: every
chunk has at most `s` elements and every chunk but the last has exactly
`s`. -/
theorem reduceChunk_shape (s : Nat) (hs : 1 ≤ s) (acc : List (List α)) (x : α)
    (h1 : ∀ c ∈ acc, c.length ≤ s) (h2 : ∀ c ∈ acc.dropLast, c.length = s) :
    (∀ c ∈ reduceChunk s acc x, c.length ≤ s)
    ∧ (∀ c ∈ (reduceChunk s acc x).dropLast, c.length = s) := by
  unfold reduceChunk
  cases hl : acc.getLast? with
  | none =>
    have : acc = [] := List.getLast?_eq_none_iff.mp hl
    subst this
    constructor
    · intro c hc
      simp at hc
      simp [hc, hs]
    · intro c hc
      simp at hc
  | some last =>
    obtain ⟨ys, rfl⟩ := List.getLast?_eq_some_iff.mp hl
    by_cases hsl : s ≤ last.length
    · have hlast : last.length = s :=
        Nat.le_antisymm (h1 last (by simp)) hsl
      constructor
      · intro c hc
        simp only [if_pos hsl] at hc
        rcases List.mem_append.mp hc with hc | hc
        · exact h1 c hc
        · simp at hc
          simp [hc, hs]
      · intro c hc
        simp only [if_pos hsl, List.dropLast_concat] at hc
        rcases List.mem_append.mp hc with hc | hc
        · exact h2 c (by simp [List.dropLast_concat, hc])
        · simp at hc
          simp [hc, hlast]
    · constructor
      · intro c hc
        simp only [if_neg hsl, List.dropLast_concat] at hc
        rcases List.mem_append.mp hc with hc | hc
        · exact Nat.le_of_eq (h2 c (by simp [List.dropLast_concat, hc]))
        · simp at hc
          subst hc
          simp only [List.length_append, List.length_cons, List.length_nil]
          omega
      · intro c hc
        simp only [if_neg hsl, List.dropLast_concat] at hc
        exact h2 c (by simp [List.dropLast_concat, hc])

/-- The fold of `reduceChunk` over any item list, with any accumulator
satisfying the chunk-shape invariant: the concatenation extends by the
items in order, and the invariant is preserved. -/
theorem foldl_reduceChunk_spec (s : Nat) (hs : 1 ≤ s) (l : List α) :
    ∀ acc : List (List α),
      (∀ c ∈ acc, c.length ≤ s) → (∀ c ∈ acc.dropLast, c.length = s) →
      (l.foldl (reduceChunk s) acc).flatten = acc.flatten ++ l
      ∧ (∀ c ∈ l.foldl (reduceChunk s) acc, c.length ≤ s)
      ∧ (∀ c ∈ (l.foldl (reduceChunk s) acc).dropLast, c.length = s) := by
  induction l with
  | nil => intro acc h1 h2; exact ⟨by simp, h1, h2⟩
  | cons x xs ih =>
    intro acc h1 h2
    obtain ⟨h1', h2'⟩ := reduceChunk_shape s hs acc x h1 h2
    obtain ⟨ha, hb, hc⟩ := ih (reduceChunk s acc x) h1' h2'
    refine ⟨?_, hb, hc⟩
    rw [List.foldl_cons, ha, reduceChunk_flatten]
    simp

end ChunkLemmas

/-- C1: for any list `L` and chunk size `s ≥ 1`, the chunks
`uniq(L).reduce(reduceChunk(s), [])` concatenate to exactly the distinct
elements of `L` in first-occurrence order (`dedupeSpec`), every chunk
has length at most `s`, every chunk except possibly the last has
exactly `s` elements, and the empty input yields an empty list of
chunks rather than one empty chunk. -/
theorem dedupe_chunk_partition {α : Type u} [DecidableEq α]
    (L : List α) (s : Nat) (hs : 1 ≤ s) :
    ((jsUniq L).foldl (reduceChunk s) []).flatten
        = dedupeSpec (fun x => x) [] L
    ∧ (∀ c ∈ (jsUniq L).foldl (reduceChunk s) [], c.length ≤ s)
    ∧ (∀ c ∈ ((jsUniq L).foldl (reduceChunk s) []).dropLast, c.length = s)
    ∧ (L = [] → (jsUniq L).foldl (reduceChunk s) [] = []) := by
  obtain ⟨ha, hb, hc⟩ :=
    foldl_reduceChunk_spec s hs (jsUniq L) [] (by simp) (by simp)
  refine ⟨?_, hb, hc, ?_⟩
  · rw [ha, jsUniq_eq_dedupeSpec]
    simp
  · intro h
    subst h
    rfl

theorem dedupe_chunk_partition_witness :
    1 ≤ 2
    ∧ ((jsUniq [0, 1, 2, 1, 3]).foldl (reduceChunk 2) []).flatten
        = dedupeSpec (fun x => x) [] [0, 1, 2, 1, 3]
    ∧ ∀ c ∈ (jsUniq [0, 1, 2, 1, 3]).foldl (reduceChunk 2) [],
        c.length ≤ 2 :=
  ⟨by decide,
    (dedupe_chunk_partition [0, 1, 2, 1, 3] 2 (by decide)).1,
    (dedupe_chunk_partition [0, 1, 2, 1, 3] 2 (by decide)).2.1⟩

/-! ## Lemmas about `groupBy` / `indexBy` and the description join -/

section JoinLemmas

variable {ι : Type u} {κ : Type v}

theorem find?_enumFrom_snd (q : ι → Bool) (l : List ι) :
    ∀ n : Nat,
      ((l.enumFrom n).find? (fun p => q p.2)).map Prod.snd = l.find? q := by
  induction l with
  | nil => intro n; rfl
  | cons x xs ih =>
    intro n
    by_cases hq : q x <;> simp [List.enumFrom_cons, hq, ih]

theorem find?_enum_snd (q : ι → Bool) (l : List ι) :
    (l.enum.find? (fun p => q p.2)).map Prod.snd = l.find? q :=
  find?_enumFrom_snd q l 0

theorem find?_filter_and (l : List ι) (p q : ι → Bool) :
    (l.filter p).find? q = l.find? (fun a => p a && q a) := by
  induction l with
  | nil => rfl
  | cons x t ih =>
    by_cases hp : p x
    · by_cases hq : q x <;> simp [hp, hq, ih]
    · simp [hp, ih]

variable [DecidableEq κ]

/-- Folding `indexByStep` never overwrites: the lookup in the result is
the lookup in the accumulator, or else the first list item deriving the
key. -/
theorem lookupEntry_foldl_indexByStep (key : ι → Nat → κ)
    (l : List (Nat × ι)) :
    ∀ (g : List (κ × ι)) (k : κ),
      lookupEntry (l.foldl (indexByStep key) g) k
        = (lookupEntry g k).or
            ((l.find? (fun p => decide (key p.2 p.1 = k))).map Prod.snd) := by
  induction l with
  | nil => intro g k; simp
  | cons p t ih =>
    intro g k
    rw [List.foldl_cons]
    by_cases hk : key p.2 p.1 = k
    · subst hk
      cases hg : lookupEntry g (key p.2 p.1) with
      | some w =>
        have hstep : indexByStep key g p = g := by simp [indexByStep, hg]
        rw [hstep, ih]
        simp [hg]
      | none =>
        have hstep : indexByStep key g p = g ++ [(key p.2 p.1, p.2)] := by
          simp [indexByStep, hg]
        rw [hstep, ih, lookupEntry_append]
        simp [hg, lookupEntry_cons, lookupEntry_nil]
    · cases hg : lookupEntry g (key p.2 p.1) with
      | some w =>
        have hstep : indexByStep key g p = g := by simp [indexByStep, hg]
        rw [hstep, ih]
        simp [hk]
      | none =>
        have hstep : indexByStep key g p = g ++ [(key p.2 p.1, p.2)] := by
          simp [indexByStep, hg]
        rw [hstep, ih, lookupEntry_append]
        simp [lookupEntry_cons, lookupEntry_nil, hk, Option.or_none]

/-- First-seen-wins for `indexBy`: the entry stored under `k` is the
first item of the array (in input order) whose derived key is `k`. -/
theorem lookupEntry_indexBy (arr : List ι) (key : ι → Nat → κ) (k : κ) :
    lookupEntry (indexBy arr key) k
      = (arr.enum.find? (fun p => decide (key p.2 p.1 = k))).map Prod.snd := by
  have h := lookupEntry_foldl_indexByStep key arr.enum [] k
  simpa [indexBy] using h

/-- Folding `groupByStep` onto an accumulator whose group at `k` is
`items` appends the matching items in order. -/
theorem lookupEntry_foldl_groupByStep_some (key : ι → Nat → κ)
    (l : List (Nat × ι)) :
    ∀ (g : List (κ × List ι)) (k : κ) (items : List ι),
      lookupEntry g k = some items →
      lookupEntry (l.foldl (groupByStep key) g) k
        = some (items
            ++ (l.filter (fun p => decide (key p.2 p.1 = k))).map Prod.snd) := by
  induction l with
  | nil => intro g k items h; simpa using h
  | cons p t ih =>
    intro g k items h
    rw [List.foldl_cons]
    by_cases hk : key p.2 p.1 = k
    · subst hk
      have hstep : groupByStep key g p
          = updEntry g (key p.2 p.1) (items ++ [p.2]) := by
        simp [groupByStep, h]
      have hlook : lookupEntry (updEntry g (key p.2 p.1) (items ++ [p.2]))
          (key p.2 p.1) = some (items ++ [p.2]) := by
        rw [lookupEntry_updEntry_self, h]
        rfl
      rw [hstep, ih _ _ (items ++ [p.2]) hlook]
      simp [List.filter_cons]
    · cases hg : lookupEntry g (key p.2 p.1) with
      | some w =>
        have hstep : groupByStep key g p
            = updEntry g (key p.2 p.1) (w ++ [p.2]) := by
          simp [groupByStep, hg]
        have hlook : lookupEntry (updEntry g (key p.2 p.1) (w ++ [p.2])) k
            = some items := by
          rw [lookupEntry_updEntry_ne _ _ (fun hkk => hk hkk.symm)]
          exact h
        rw [hstep, ih _ k items hlook]
        simp [List.filter_cons, hk]
      | none =>
        have hstep : groupByStep key g p = g ++ [(key p.2 p.1, [p.2])] := by
          simp [groupByStep, hg]
        have hlook : lookupEntry (g ++ [(key p.2 p.1, [p.2])]) k
            = some items := by
          rw [lookupEntry_append, h]
          rfl
        rw [hstep, ih _ k items hlook]
        simp [List.filter_cons, hk]

/-- Folding `groupByStep` onto an accumulator with no group at `k`
yields the matching items in order, or no entry when there are none. -/
theorem lookupEntry_foldl_groupByStep_none (key : ι → Nat → κ)
    (l : List (Nat × ι)) :
    ∀ (g : List (κ × List ι)) (k : κ),
      lookupEntry g k = none →
      lookupEntry (l.foldl (groupByStep key) g) k
        = if (l.filter (fun p => decide (key p.2 p.1 = k))).isEmpty then none
          else some ((l.filter
            (fun p => decide (key p.2 p.1 = k))).map Prod.snd) := by
  induction l with
  | nil => intro g k h; simpa using h
  | cons p t ih =>
    intro g k h
    rw [List.foldl_cons]
    by_cases hk : key p.2 p.1 = k
    · subst hk
      have hstep : groupByStep key g p = g ++ [(key p.2 p.1, [p.2])] := by
        simp [groupByStep, h]
      have hlook : lookupEntry (g ++ [(key p.2 p.1, [p.2])]) (key p.2 p.1)
          = some [p.2] := by
        rw [lookupEntry_append, h, lookupEntry_cons]
        simp
      rw [hstep, lookupEntry_foldl_groupByStep_some key t _ _ [p.2] hlook]
      simp [List.filter_cons]
    · cases hg : lookupEntry g (key p.2 p.1) with
      | some w =>
        have hstep : groupByStep key g p
            = updEntry g (key p.2 p.1) (w ++ [p.2]) := by
          simp [groupByStep, hg]
        have hlook : lookupEntry (updEntry g (key p.2 p.1) (w ++ [p.2])) k
            = none := by
          rw [lookupEntry_updEntry_ne _ _ (fun hkk => hk hkk.symm)]
          exact h
        have hfe : List.filter (fun q => decide (key q.2 q.1 = k)) (p :: t)
            = List.filter (fun q => decide (key q.2 q.1 = k)) t :=
          List.filter_cons_of_neg (by simp [hk])
        rw [hstep, ih _ k hlook]
        simp only [hfe]
      | none =>
        have hstep : groupByStep key g p = g ++ [(key p.2 p.1, [p.2])] := by
          simp [groupByStep, hg]
        have hlook : lookupEntry (g ++ [(key p.2 p.1, [p.2])]) k = none := by
          rw [lookupEntry_append, h, lookupEntry_cons]
          simp [hk, lookupEntry_nil]
        have hfe : List.filter (fun q => decide (key q.2 q.1 = k)) (p :: t)
            = List.filter (fun q => decide (key q.2 q.1 = k)) t :=
          List.filter_cons_of_neg (by simp [hk])
        rw [hstep, ih _ k hlook]
        simp only [hfe]

/-- The group stored by `groupBy` under `k`: the matching items in input
order (no entry when no item derives `k`). -/
theorem lookupEntry_groupBy (arr : List ι) (key : ι → Nat → κ) (k : κ) :
    lookupEntry (groupBy arr key) k
      = if (arr.enum.filter (fun p => decide (key p.2 p.1 = k))).isEmpty
        then none
        else some ((arr.enum.filter
          (fun p => decide (key p.2 p.1 = k))).map Prod.snd) :=
  lookupEntry_foldl_groupByStep_none key arr.enum [] k rfl

/-- Reading the mapped association list built by `twoLevelTable`. -/
theorem lookupEntry_twoLevelTable {V : Type v} [DecidableEq V]
    (descriptions : List (List (String × V))) (outerKey innerKey : String)
    (o : Option V) :
    lookupEntry (twoLevelTable descriptions outerKey innerKey) o
      = (lookupEntry (groupBy descriptions (fun d _ => lookupEntry d outerKey))
          o).map (fun grp => indexBy grp (fun d _ => lookupEntry d innerKey)) := by
  unfold twoLevelTable
  generalize (groupBy descriptions fun d _ => lookupEntry d outerKey) = l
  induction l with
  | nil => rfl
  | cons a t ih => by_cases h : a.1 = o <;> simp [lookupEntry_cons, h, ih]

/-- The two-level lookup table resolves every `(outer, inner)` pair to
the *first* description in input order carrying those two field values:
first-seen-wins holds through the `groupBy`/`indexBy` composition at the
join sites. -/
theorem tableLookup_eq_find {V : Type v} [DecidableEq V]
    (descriptions : List (List (String × V))) (outerKey innerKey : String)
    (o i : Option V) :
    (lookupEntry (twoLevelTable descriptions outerKey innerKey) o).bind
        (fun inner => lookupEntry inner i)
      = descriptions.find?
          (fun d => decide (lookupEntry d outerKey = o)
            && decide (lookupEntry d innerKey = i)) := by
  rw [lookupEntry_twoLevelTable, lookupEntry_groupBy]
  by_cases hf : (descriptions.enum.filter
      (fun p => decide (lookupEntry p.2 outerKey = o))) = []
  · rw [← find?_enum_snd
      (fun d => decide (lookupEntry d outerKey = o)
        && decide (lookupEntry d innerKey = i)) descriptions]
    have hnone : descriptions.enum.find?
        (fun p => decide (lookupEntry p.2 outerKey = o)
          && decide (lookupEntry p.2 innerKey = i)) = none := by
      rw [List.find?_eq_none]
      intro p hp hpc
      have ho : decide (lookupEntry p.2 outerKey = o) = true :=
        (Bool.and_eq_true _ _).mp hpc |>.1
      have : p ∈ descriptions.enum.filter
          (fun p => decide (lookupEntry p.2 outerKey = o)) :=
        List.mem_filter.mpr ⟨hp, ho⟩
      rw [hf] at this
      simp at this
    rw [hnone]
    simp [hf]
  · have hne : (descriptions.enum.filter
        (fun p => decide (lookupEntry p.2 outerKey = o))).isEmpty = false :=
      List.isEmpty_eq_false.mpr hf
    rw [if_neg (by simp [hne])]
    simp only [Option.map_some', Option.some_bind]
    rw [lookupEntry_indexBy]
    rw [show (fun (p : Nat × List (String × V)) =>
        decide ((fun d _ => lookupEntry d innerKey) p.2 p.1 = i))
      = (fun (p : Nat × List (String × V)) =>
        (fun d => decide (lookupEntry d innerKey = i)) p.2) from rfl]
    rw [find?_enum_snd (fun d => decide (lookupEntry d innerKey = i))]
    rw [List.find?_map, find?_filter_and]
    rw [← find?_enum_snd
      (fun d => decide (lookupEntry d outerKey = o)
        && decide (lookupEntry d innerKey = i)) descriptions]
    rfl

/-- Field-level semantics of the spread merge: on an object with unique
keys (every JS object), a field of `objAssign t r` reads from `r` when
`r` carries it and from `t` otherwise — the `response`/secondary fields
take precedence on collision. -/
theorem lookupEntry_objAssign {β : Type v} (r : List (String × β)) :
    ∀ (t : List (String × β)) (k : String), (r.map Prod.fst).Nodup →
      lookupEntry (objAssign t r) k
        = (lookupEntry r k).or (lookupEntry t k) := by
  induction r with
  | nil => intro t k _; simp [objAssign, lookupEntry_nil]
  | cons p rest ih =>
    intro t k hnd
    have hnd' : (rest.map Prod.fst).Nodup :=
      (List.nodup_cons.mp (by simpa using hnd)).2
    have hp : p.1 ∉ rest.map Prod.fst :=
      (List.nodup_cons.mp (by simpa using hnd)).1
    rw [show objAssign t (p :: rest) = objAssign (objAssignStep t p) rest
      from rfl]
    rw [ih _ k hnd']
    by_cases hk : p.1 = k
    · have hrest : lookupEntry rest k = none := by
        rw [lookupEntry_eq_none_iff]
        intro q hq hqk
        exact hp (by
          have hm : q.1 ∈ rest.map Prod.fst := List.mem_map_of_mem _ hq
          rwa [hqk, ← hk] at hm)
      have hstep : lookupEntry (objAssignStep t p) k = some p.2 := by
        unfold objAssignStep
        cases hg : lookupEntry t p.1 with
        | some w =>
          rw [← hk]
          have := lookupEntry_updEntry_self t p.1 p.2
          rw [this, hg]
          rfl
        | none =>
          rw [← hk, lookupEntry_append, hg, lookupEntry_cons]
          simp
      rw [hrest, hstep, lookupEntry_cons]
      simp [hk]
    · have hstep : lookupEntry (objAssignStep t p) k = lookupEntry t k := by
        unfold objAssignStep
        cases hg : lookupEntry t p.1 with
        | some w => exact lookupEntry_updEntry_ne t p.2 (fun hx => hk hx.symm)
        | none =>
          rw [lookupEntry_append]
          simp [lookupEntry_cons, hk, lookupEntry_nil, Option.or_none]
      rw [hstep, lookupEntry_cons]
      simp [hk]

end JoinLemmas

/-- C5: `indexBy` keeps only the first item per derived key — the entry
stored under a key is the first item, in input order, deriving that key,
and every later item with the same key is dropped; the same
first-seen-wins behaviour holds for the `(outer, inner)` pair lookups of
the two-level table built at the join sites. -/
theorem indexBy_first_seen_wins {ι : Type u} {κ : Type v} [DecidableEq κ]
    {V : Type v} [DecidableEq V]
    (arr : List ι) (key : ι → Nat → κ) (k : κ)
    (descriptions : List (List (String × V))) (outerKey innerKey : String)
    (o i : Option V) :
    lookupEntry (indexBy arr key) k
      = (arr.enum.find? (fun p => decide (key p.2 p.1 = k))).map Prod.snd
    ∧ (lookupEntry (twoLevelTable descriptions outerKey innerKey) o).bind
        (fun inner => lookupEntry inner i)
      = descriptions.find?
          (fun d => decide (lookupEntry d outerKey = o)
            && decide (lookupEntry d innerKey = i)) :=
  ⟨lookupEntry_indexBy arr key k,
    tableLookup_eq_find descriptions outerKey innerKey o i⟩

/-- C4: the description join returns one record per primary record, in
the primary order (it is the map over `primary` sending each record to
the shallow merge `{...item, ...match}` — secondary fields winning on
collision via `objAssign` — when the two-level table holds a match for
the record's `(outer, inner)` field pair, i.e. when some description
carries the same two field values, and to the record itself, untouched,
when there is no match); in particular the result has the same length
as `primary` and no error or placeholder is ever produced.  The third
conjunct is the field-level reading of the merge: on a matched record
(with the match's keys unique, as on every JS object) a field comes from
the secondary record when it carries the field and from the primary
record otherwise — secondary fields take precedence on collision. -/
theorem join_preserves_primary {V : Type v} [DecidableEq V]
    (primary secondary : List (List (String × V)))
    (outerKey innerKey : String) :
    combineWithDescriptions primary secondary outerKey innerKey
      = primary.map (fun item =>
          match secondary.find?
              (fun d => decide (lookupEntry d outerKey = lookupEntry item outerKey)
                && decide (lookupEntry d innerKey = lookupEntry item innerKey)) with
          | some classinfo => objAssign item classinfo
          | none => item)
    ∧ (combineWithDescriptions primary secondary outerKey innerKey).length
        = primary.length
    ∧ ∀ (item classinfo : List (String × V)) (k : String),
        (classinfo.map Prod.fst).Nodup →
        lookupEntry (objAssign item classinfo) k
          = (lookupEntry classinfo k).or (lookupEntry item k) := by
  refine ⟨?_, ?_, ?_⟩
  · unfold combineWithDescriptions
    refine List.map_congr_left (fun item _ => ?_)
    rw [tableLookup_eq_find]
  · unfold combineWithDescriptions
    exact List.length_map _ _
  · intro item classinfo k hnd
    exact lookupEntry_objAssign classinfo item k hnd

theorem join_preserves_primary_witness :
    (combineWithDescriptions
        [[("classid", 1), ("instanceid", 5)], [("classid", 2)]]
        [[("classid", 1), ("instanceid", 5), ("name", 9)]]
        "classid" "instanceid").length = 2
    ∧ ([("name", 9), ("classid", 1)].map
        (Prod.fst (α := String) (β := Nat))).Nodup
    ∧ lookupEntry
        (objAssign [("classid", 7), ("name", 3)] [("name", 9), ("classid", 1)])
        "name" = some 9 := by
  refine ⟨(join_preserves_primary
      [[("classid", 1), ("instanceid", 5)], [("classid", 2)]]
      [[("classid", 1), ("instanceid", 5), ("name", 9)]]
      "classid" "instanceid").2.1, by decide, ?_⟩
  rw [(join_preserves_primary
      [[("classid", (1 : Nat)), ("instanceid", 5)], [("classid", 2)]]
      [[("classid", 1), ("instanceid", 5), ("name", 9)]]
      "classid" "instanceid").2.2
    [("classid", 7), ("name", 3)] [("name", 9), ("classid", 1)] "name"
    (by decide)]
  rfl

/-! ## Lemmas about `fixClassInfo` -/

section FixClassInfoLemmas

theorem fixKey_of_none {c : JObj} {k : String} (h : getProp c k = none) :
    fixKey c k = c := by
  simp [fixKey, h]

theorem fixKey_of_falsy {c : JObj} {k : String} {v : JVal}
    (h : getProp c k = some v) (ht : ¬ v.truthy = true) :
    fixKey c k = c := by
  simp [fixKey, h, ht]

theorem fixKey_of_truthy {c : JObj} {k : String} {v : JVal}
    (h : getProp c k = some v) (ht : v.truthy = true) :
    fixKey c k = setProp c k (.arr v.objectValues) := by
  simp [fixKey, h, ht]

theorem getProp_fixKey_ne (c : JObj) {k k' : String} (h : k' ≠ k) :
    getProp (fixKey c k) k' = getProp c k' := by
  cases hg : getProp c k with
  | none => simp [fixKey, hg]
  | some v =>
    by_cases ht : v.truthy
    · simp only [fixKey, hg, if_pos ht]
      exact lookupEntry_updEntry_ne c _ h
    · simp [fixKey, hg, ht]

theorem fixKey_self_idem (c : JObj) (k : String) :
    fixKey (fixKey c k) k = fixKey c k := by
  cases hg : getProp c k with
  | none =>
    have h1 : fixKey c k = c := by simp [fixKey, hg]
    simp [h1]
  | some v =>
    by_cases ht : v.truthy
    · have h1 : fixKey c k = setProp c k (.arr v.objectValues) := by
        simp [fixKey, hg, ht]
      have h2 : getProp (setProp c k (.arr v.objectValues)) k
          = some (.arr v.objectValues) := by
        have := lookupEntry_updEntry_self c k (JVal.arr v.objectValues)
        rw [setProp, getProp, this]
        rw [show lookupEntry c k = getProp c k from rfl, hg]
        rfl
      rw [h1]
      simp only [fixKey, h2, JVal.truthy, if_pos]
      rw [show (JVal.arr v.objectValues).objectValues = v.objectValues from rfl]
      exact updEntry_updEntry_self c k _ _
    · have h1 : fixKey c k = c := by simp [fixKey, hg, ht]
      simp [h1]

theorem fixKey_comm (c : JObj) {k k' : String} (h : k ≠ k') :
    fixKey (fixKey c k) k' = fixKey (fixKey c k') k := by
  cases hg : getProp c k with
  | none =>
    have h1 : fixKey c k = c := fixKey_of_none hg
    have h2 : getProp (fixKey c k') k = none := by
      rw [getProp_fixKey_ne c h]
      exact hg
    have h3 : fixKey (fixKey c k') k = fixKey c k' := fixKey_of_none h2
    rw [h1, h3]
  | some v =>
    by_cases ht : v.truthy
    · cases hg' : getProp c k' with
      | none =>
        have ha : fixKey c k' = c := fixKey_of_none hg'
        have hb : getProp (fixKey c k) k' = none := by
          rw [getProp_fixKey_ne c (fun hx => h hx.symm)]
          exact hg'
        have hc : fixKey (fixKey c k) k' = fixKey c k := fixKey_of_none hb
        rw [ha, hc]
      | some v' =>
        by_cases ht' : v'.truthy
        · have ha : fixKey c k = setProp c k (.arr v.objectValues) :=
            fixKey_of_truthy hg ht
          have hb : fixKey c k' = setProp c k' (.arr v'.objectValues) :=
            fixKey_of_truthy hg' ht'
          have hc : getProp (fixKey c k) k' = some v' := by
            rw [getProp_fixKey_ne c (fun hx => h hx.symm)]
            exact hg'
          have hd : getProp (fixKey c k') k = some v := by
            rw [getProp_fixKey_ne c h]
            exact hg
          have hL : fixKey (fixKey c k) k'
              = setProp (fixKey c k) k' (.arr v'.objectValues) :=
            fixKey_of_truthy hc ht'
          have hR : fixKey (fixKey c k') k
              = setProp (fixKey c k') k (.arr v.objectValues) :=
            fixKey_of_truthy hd ht
          rw [hL, hR, ha, hb]
          exact updEntry_comm c _ _ h
        · have ha : fixKey c k' = c := fixKey_of_falsy hg' ht'
          have hc : getProp (fixKey c k) k' = some v' := by
            rw [getProp_fixKey_ne c (fun hx => h hx.symm)]
            exact hg'
          have hL : fixKey (fixKey c k) k' = fixKey c k :=
            fixKey_of_falsy hc ht'
          rw [ha, hL]
    · have h1 : fixKey c k = c := fixKey_of_falsy hg ht
      have h2 : getProp (fixKey c k') k = some v := by
        rw [getProp_fixKey_ne c h]
        exact hg
      have h3 : fixKey (fixKey c k') k = fixKey c k' :=
        fixKey_of_falsy h2 ht
      rw [h1, h3]

theorem fixKey_foldl_comm (ks : List String) :
    ∀ (c : JObj) (k : String), k ∉ ks →
      fixKey (ks.foldl fixKey c) k = ks.foldl fixKey (fixKey c k) := by
  induction ks with
  | nil => intro c k _; rfl
  | cons a t ih =>
    intro c k hk
    have hak : a ≠ k := fun hx => hk (by simp [hx])
    have hkt : k ∉ t := fun hx => hk (by simp [hx])
    rw [List.foldl_cons, List.foldl_cons, ih _ k hkt, fixKey_comm c hak]

theorem foldl_fixKey_idem (ks : List String) :
    ∀ c : JObj, ks.Nodup →
      ks.foldl fixKey (ks.foldl fixKey c) = ks.foldl fixKey c := by
  induction ks with
  | nil => intro c _; rfl
  | cons a t ih =>
    intro c hnd
    have ha : a ∉ t := (List.nodup_cons.mp hnd).1
    have ht : t.Nodup := (List.nodup_cons.mp hnd).2
    rw [List.foldl_cons, List.foldl_cons, fixKey_foldl_comm t _ a ha,
      fixKey_self_idem]
    exact ih (fixKey c a) ht

theorem getProp_fixKey_none (c : JObj) (a k : String)
    (h : getProp c k = none) : getProp (fixKey c a) k = none := by
  by_cases hak : k = a
  · subst hak
    simp [fixKey, h]
  · rw [getProp_fixKey_ne c hak]
    exact h

theorem getProp_fixKey_arr (c : JObj) (a k : String) (xs : List JVal)
    (h : getProp c k = some (.arr xs)) :
    getProp (fixKey c a) k = some (.arr xs) := by
  by_cases hak : k = a
  · subst hak
    simp only [fixKey, h, JVal.truthy, if_pos]
    have := lookupEntry_updEntry_self c k
      (JVal.arr (JVal.arr xs).objectValues)
    rw [setProp, getProp, this,
      show lookupEntry c k = getProp c k from rfl, h]
    rfl
  · rw [getProp_fixKey_ne c hak]
    exact h

theorem getProp_foldl_fixKey_none (ks : List String) :
    ∀ (c : JObj) (k : String), getProp c k = none →
      getProp (ks.foldl fixKey c) k = none := by
  induction ks with
  | nil => intro c k h; exact h
  | cons a t ih =>
    intro c k h
    exact ih _ k (getProp_fixKey_none c a k h)

theorem getProp_foldl_fixKey_arr (ks : List String) :
    ∀ (c : JObj) (k : String) (xs : List JVal),
      getProp c k = some (.arr xs) →
      getProp (ks.foldl fixKey c) k = some (.arr xs) := by
  induction ks with
  | nil => intro c k xs h; exact h
  | cons a t ih =>
    intro c k xs h
    exact ih _ k xs (getProp_fixKey_arr c a k xs h)

theorem getProp_foldl_fixKey_not_mem (ks : List String) :
    ∀ (c : JObj) (k : String), k ∉ ks →
      getProp (ks.foldl fixKey c) k = getProp c k := by
  induction ks with
  | nil => intro c k _; rfl
  | cons a t ih =>
    intro c k hk
    have hka : k ≠ a := fun hx => hk (by simp [hx])
    have hkt : k ∉ t := fun hx => hk (by simp [hx])
    rw [List.foldl_cons, ih _ k hkt, getProp_fixKey_ne c hka]

end FixClassInfoLemmas

/-- C8: the classinfo normalizer is idempotent — running `fixClassInfo`
a second time over the same arrayish fields changes nothing; fields
absent from the record stay absent, fields outside the arrayish set are
untouched, and a field that is already an ordered sequence keeps its
value even on the first pass (so in particular on any later pass). -/
theorem fixClassInfo_idempotent (c : JObj) :
    fixClassInfo (fixClassInfo c) = fixClassInfo c
    ∧ (∀ k : String, getProp c k = none → getProp (fixClassInfo c) k = none)
    ∧ (∀ k : String, k ∉ arrayishKeys →
        getProp (fixClassInfo c) k = getProp c k)
    ∧ (∀ (k : String) (xs : List JVal), getProp c k = some (.arr xs) →
        getProp (fixClassInfo c) k = some (.arr xs)) :=
  ⟨foldl_fixKey_idem arrayishKeys c (by decide),
    fun k h => getProp_foldl_fixKey_none arrayishKeys c k h,
    fun k h => getProp_foldl_fixKey_not_mem arrayishKeys c k h,
    fun k xs h => getProp_foldl_fixKey_arr arrayishKeys c k xs h⟩

theorem fixClassInfo_idempotent_witness :
    fixClassInfo (fixClassInfo
        [("actions", JVal.obj [("0", JVal.num 1)]),
          ("descriptions", JVal.arr [JVal.num 2]),
          ("name", JVal.str "x")])
      = fixClassInfo
          [("actions", JVal.obj [("0", JVal.num 1)]),
            ("descriptions", JVal.arr [JVal.num 2]),
            ("name", JVal.str "x")]
    ∧ getProp (fixClassInfo
        [("actions", JVal.obj [("0", JVal.num 1)]),
          ("descriptions", JVal.arr [JVal.num 2]),
          ("name", JVal.str "x")]) "tags" = none
    ∧ getProp (fixClassInfo
        [("actions", JVal.obj [("0", JVal.num 1)]),
          ("descriptions", JVal.arr [JVal.num 2]),
          ("name", JVal.str "x")]) "name"
      = getProp
          [("actions", JVal.obj [("0", JVal.num 1)]),
            ("descriptions", JVal.arr [JVal.num 2]),
            ("name", JVal.str "x")] "name"
    ∧ getProp (fixClassInfo
        [("actions", JVal.obj [("0", JVal.num 1)]),
          ("descriptions", JVal.arr [JVal.num 2]),
          ("name", JVal.str "x")]) "descriptions"
      = some (JVal.arr [JVal.num 2]) :=
  ⟨(fixClassInfo_idempotent _).1,
    (fixClassInfo_idempotent _).2.1 "tags" rfl,
    (fixClassInfo_idempotent _).2.2.1 "name" (by decide),
    (fixClassInfo_idempotent _).2.2.2 "descriptions" [JVal.num 2] rfl⟩

/-! ## Lemmas about the `getAssetClassInfos` merge -/

section MergeLemmas

variable {β : Type v}

theorem objAssignStep_keys (P : String → Prop) (t : List (String × β))
    (p : String × β) (ht : ∀ q ∈ t, P q.1) (hp : P p.1) :
    ∀ q ∈ objAssignStep t p, P q.1 := by
  intro q hq
  unfold objAssignStep at hq
  cases hg : lookupEntry t p.1 with
  | some w =>
    rw [hg] at hq
    rcases List.mem_map.mp hq with ⟨q', hq', rfl⟩
    by_cases hx : q'.1 = p.1
    · simpa [hx] using hp
    · simpa [hx] using ht q' hq'
  | none =>
    rw [hg] at hq
    rcases List.mem_append.mp hq with hq | hq
    · exact ht q hq
    · simp at hq
      subst hq
      exact hp

theorem foldl_objAssignStep_keys (P : String → Prop)
    (rs : List (String × β)) :
    ∀ t : List (String × β), (∀ q ∈ t, P q.1) → (∀ q ∈ rs, P q.1) →
      ∀ q ∈ rs.foldl objAssignStep t, P q.1 := by
  induction rs with
  | nil => intro t ht _ q hq; exact ht q hq
  | cons p rest ih =>
    intro t ht hrs q hq
    rw [List.foldl_cons] at hq
    exact ih (objAssignStep t p)
      (objAssignStep_keys P t p ht (hrs p (by simp)))
      (fun p' hp' => hrs p' (by simp [hp'])) q hq

theorem foldl_objAssign_keys (P : String → Prop)
    (rs : List (List (String × β))) :
    ∀ t : List (String × β), (∀ q ∈ t, P q.1) →
      (∀ r ∈ rs, ∀ q ∈ r, P q.1) →
      ∀ q ∈ rs.foldl objAssign t, P q.1 := by
  induction rs with
  | nil => intro t ht _ q hq; exact ht q hq
  | cons r rest ih =>
    intro t ht hrs q hq
    rw [List.foldl_cons] at hq
    exact ih (objAssign t r)
      (foldl_objAssignStep_keys P r t ht (hrs r (by simp)))
      (fun r' hr' => hrs r' (by simp [hr'])) q hq

theorem processChunkResult_keys (r : JObj) :
    ∀ q ∈ processChunkResult r, q.1 ≠ "success" := by
  intro q hq
  unfold processChunkResult deleteProp at hq
  rcases List.mem_map.mp hq with ⟨p, hp, rfl⟩
  rcases List.mem_filter.mp hp with ⟨_, hdec⟩
  simpa using of_decide_eq_true hdec

end MergeLemmas

/-- C9: the merged container of the batched classinfo lookup never
contains the `success` key — the flag is deleted from each per-chunk
`result` unconditionally, without its value ever being inspected, so two
per-chunk responses that agree except on the `success` entry produce
identical merged output. -/
theorem success_flag_discarded (results : List JObj) :
    getProp (getAssetClassInfosMerge results) "success" = none
    ∧ ∀ (pre post : List JObj) (r r' : JObj),
        deleteProp r "success" = deleteProp r' "success" →
        getAssetClassInfosMerge (pre ++ r :: post)
          = getAssetClassInfosMerge (pre ++ r' :: post) := by
  constructor
  · rw [getProp, lookupEntry_eq_none_iff]
    intro p hp
    refine foldl_objAssign_keys (fun k => k ≠ "success")
      (results.map processChunkResult) [] (by simp) ?_ p hp
    intro r hr
    rcases List.mem_map.mp hr with ⟨r0, _, rfl⟩
    exact processChunkResult_keys r0
  · intro pre post r r' hrr
    unfold getAssetClassInfosMerge
    rw [List.map_append, List.map_append, List.map_cons, List.map_cons]
    have hpc : processChunkResult r = processChunkResult r' := by
      unfold processChunkResult deleteProp
      unfold deleteProp at hrr
      rw [hrr]
    rw [hpc]

theorem success_flag_discarded_witness :
    getProp (getAssetClassInfosMerge
        [[("success", JVal.bool true), ("5", JVal.num 7)]]) "success" = none
    ∧ getAssetClassInfosMerge
          ([] ++ [("success", JVal.bool true)] :: [])
        = getAssetClassInfosMerge
          ([] ++ [("success", JVal.bool false)] :: []) :=
  ⟨(success_flag_discarded
      [[("success", JVal.bool true), ("5", JVal.num 7)]]).1,
    (success_flag_discarded []).2 [] []
      [("success", JVal.bool true)] [("success", JVal.bool false)] rfl⟩

/-- C10: `getTradeHistory` strips `combine_descriptions` only from the
internal copy `params = {...options}` — in the store model, after the
call the caller's object is byte-for-byte the original (its
`combine_descriptions` field included), while the freshly allocated
`params` object, the one spread into the request's query string, is the
copy without the flag. -/
theorem getTradeHistory_does_not_mutate_options
    (store : List JObj) (optionsRef : Nat) (options : JObj)
    (h : store[optionsRef]? = some options) :
    ((getTradeHistoryParams store optionsRef).1)[optionsRef]? = some options
    ∧ ((getTradeHistoryParams store optionsRef).1)[
        (getTradeHistoryParams store optionsRef).2]?
        = some (deleteProp options "combine_descriptions")
    ∧ (getTradeHistoryParams store optionsRef).2 ≠ optionsRef := by
  have hlt : optionsRef < store.length := by
    rcases List.getElem?_eq_some_iff.mp h with ⟨hl, _⟩
    exact hl
  have hparams : store.getD optionsRef [] = options := by
    rw [List.getD_eq_getElem?_getD, h]
    rfl
  unfold getTradeHistoryParams
  simp only [hparams]
  refine ⟨?_, ?_, ?_⟩
  · rw [List.getElem?_set_ne (by omega)]
    rw [List.getElem?_append_left hlt]
    exact h
  · rw [List.getElem?_set_self (by simp)]
  · omega

theorem getTradeHistory_does_not_mutate_options_witness :
    (([[("combine_descriptions", JVal.bool true),
        ("max_trades", JVal.num 5)]] : List JObj)[0]?
      = some [("combine_descriptions", JVal.bool true),
        ("max_trades", JVal.num 5)])
    ∧ ((getTradeHistoryParams
        [[("combine_descriptions", JVal.bool true),
          ("max_trades", JVal.num 5)]] 0).1)[0]?
      = some [("combine_descriptions", JVal.bool true),
        ("max_trades", JVal.num 5)] :=
  ⟨rfl,
    (getTradeHistory_does_not_mutate_options
      [[("combine_descriptions", JVal.bool true),
        ("max_trades", JVal.num 5)]] 0
      [("combine_descriptions", JVal.bool true),
        ("max_trades", JVal.num 5)] rfl).1⟩

/-! ## C6: the chunker does not validate its size argument

The source of `reduceChunk` (src/utils.js lines 83-105) contains no
check on `chunksize` and no throw: it is a total function producing
chunks for every size.  With a non-positive size the test
`total[currentIndex].length >= chunksize` is always true, so every
element is placed in a fresh singleton chunk. -/

/-- With size `0` a `reduceChunk` step always starts a new chunk. -/
theorem reduceChunk_zero_step {α : Type u} (acc : List (List α)) (x : α) :
    reduceChunk 0 acc x = acc ++ [[x]] := by
  unfold reduceChunk
  cases acc.getLast? <;> simp

/-- C6 counterexample: for the non-positive size `0` the chunker
produces chunks (here one singleton chunk) instead of failing with an
`InvalidArgument` condition — the source has no validation or error
path at all. -/
theorem reduceChunk_zero_produces_chunks :
    ([0] : List Nat).foldl (reduceChunk 0) [] = [[0]] := by
  decide

/-- C6 amended: `reduceChunk` applies no validation to its size
argument and never signals `InvalidArgument`; a non-positive size still
produces chunks — with size `0` (and in JS any negative size behaves
identically) every element becomes its own singleton chunk. -/
theorem reduceChunk_zero_singleton_chunks {α : Type u} (L : List α) :
    L.foldl (reduceChunk 0) [] = L.map (fun x => [x]) := by
  suffices h : ∀ acc : List (List α),
      L.foldl (reduceChunk 0) acc = acc ++ L.map (fun x => [x]) by
    simpa using h []
  induction L with
  | nil => intro acc; simp
  | cons x xs ih =>
    intro acc
    rw [List.foldl_cons, reduceChunk_zero_step, ih]
    simp

end SteamApiHelpers
